import Mathlib

set_option autoImplicit false
set_option linter.unusedVariables false

namespace Crunch

/-!
Shallow embedding of the asset-pipeline core of the `crunch` repository
(`src/server/utils/security.ts`, `src/server/utils/cache.ts`, `src/optimizer.ts`,
`src/metadata.ts`, and the `/optimize` route of `src/server.ts`).

Strings are modelled as `List Char` (the sources only ever handle ASCII paths,
for which JavaScript UTF-16 code-unit indexing agrees with character indexing).
Node's `path` module is modelled for the POSIX platform the service deploys on
(`Dockerfile` / Railway, separator `/`).
-/

abbrev Str := List Char

/-- JS `String.prototype.includes(pat)`: `pat` occurs as a contiguous substring of `s`. -/
def sIncludes (s pat : Str) : Bool :=
  decide (pat <:+: s)

/-- JS `String.prototype.startsWith(pat)`. -/
def sStarts (s pat : Str) : Bool :=
  decide (pat <+: s)

/-- JS `str.replace(/\\/g, "/")`: replace every backslash by a forward slash. -/
def mapSlash (s : Str) : Str :=
  s.map fun c => if c = '\\' then '/' else c

/-- JS `str.toLowerCase()` on ASCII data. -/
def lowerL (s : Str) : Str :=
  s.map Char.toLower

/-- JS global replace of the two-character pattern `[a, b]` by `rep`,
scanning left to right over non-overlapping occurrences (the semantics of
`str.replace(/../g, rep)` for a fixed two-character pattern). -/
def replace2 (a b : Char) (rep : Str) : Str → Str
  | [] => []
  | [c] => [c]
  | c :: d :: rest =>
    if c = a ∧ d = b then rep ++ replace2 a b rep rest
    else c :: replace2 a b rep (d :: rest)

/-- JS `str.replace(/^\//, "")`: drop a single leading slash if present. -/
def dropOneSlash : Str → Str
  | '/' :: rest => rest
  | s => s

/-- JS `str.trim() === ""`: every character is whitespace (or the string is empty). -/
def jsTrimBlank (s : Str) : Bool :=
  s.all fun c => c.isWhitespace

/-- The two-character string `".."`. -/
def dotdot : Str := ['.', '.']

/-! ### Node `path` module (POSIX), as used by the sources.

An absolute path is `/seg1/seg2/...`; the process working directory is an
abstract list of segments `cwd`. -/

/-- Split on `'/'` (like `"a/b".split("/")`; an empty string yields `[[]]`). -/
def splitSlash : Str → List Str
  | [] => [[]]
  | c :: rest =>
    if c = '/' then [] :: splitSlash rest
    else (c :: (splitSlash rest).headI) :: (splitSlash rest).tail

/-- Interleave `'/'` between segments (inverse of `splitSlash` on slash-free segments). -/
def joinSegs : List Str → Str
  | [] => []
  | [s] => s
  | s :: rest => s ++ '/' :: joinSegs rest

/-- Render an absolute path from its segment list. -/
def absOf (segs : List Str) : Str :=
  '/' :: joinSegs segs

/-- The normalization core of `path.resolve`: process segments left to right on
top of the accumulator `acc`; `""` and `"."` are skipped, `".."` pops, anything
else is pushed. -/
def normStack (acc : List Str) : List Str → List Str
  | [] => acc
  | seg :: rest =>
    if seg = [] ∨ seg = ['.'] then normStack acc rest
    else if seg = dotdot then normStack acc.dropLast rest
    else normStack (acc ++ [seg]) rest

/-- Segment list of `path.resolve(p)` for working directory `cwd`. -/
def resolveSegs (cwd : List Str) (p : Str) : List Str :=
  if sStarts p ['/'] then normStack [] (splitSlash p) else normStack cwd (splitSlash p)

/-- Node `path.resolve(p)` (single argument, POSIX) for working directory `cwd`. -/
def resolveAbs (cwd : List Str) (p : Str) : Str :=
  absOf (resolveSegs cwd p)

/-- Node `path.join(a, b)` up to the normalization that the subsequent
`path.resolve` performs anyway: every use in the sources feeds the join result
straight into `path.resolve`, and `resolveAbs` normalizes `""`/`"."`/`".."`
segments and duplicate slashes itself, so only the raw concatenation is kept. -/
def joinRaw (a b : Str) : Str :=
  if a = [] then b else if b = [] then a else a ++ '/' :: b

/-! ### `src/server/utils/helpers.ts` -/

/-- `sanitizePath` from `src/utils/helpers.ts`:
`p.replace(/\.\./g, "").replace(/\/\//g, "/").replace(/^\//, "")`. -/
def sanitizePath (s : Str) : Str :=
  dropOneSlash (replace2 '/' '/' ['/'] (replace2 '.' '.' [] s))

/-! ### `src/server/utils/security.ts` (`validateImagePath`) -/

def errTraversal : String := "Invalid path: directory traversal detected"

def errBareDir : String := "Invalid path: must include file path, not just directory"

def errEmptyPath : String := "Invalid path: empty path after normalization"

def errOutsideBase : String := "Invalid path: outside allowed directory"

/-- The base-directory prefix handling of `validateImagePath`
(`security.ts` lines 74-84): strip `base + "/"`, reject a bare base-directory
reference, and otherwise strip a bare leading `base` even without a following
separator. -/
def stripBaseStep (np base : Str) : Except String Str :=
  if sStarts (lowerL np) (lowerL base ++ ['/']) then .ok (np.drop (base.length + 1))
  else if lowerL np = lowerL base then .error errBareDir
  else if sStarts (lowerL np) (lowerL base) then .ok (np.drop base.length)
  else .ok np

/-- The final stage of `validateImagePath` (`security.ts` lines 102-115): join
the sanitized relative path with the base directory, resolve both to absolute
paths, and require the resolved file path to start with the resolved base. -/
def boundaryCheck (cwd : List Str) (baseDir sanitized : Str) : Except String Str :=
  let resolvedFilePath := resolveAbs cwd (joinRaw baseDir sanitized)
  let resolvedBaseDir := resolveAbs cwd baseDir
  if !(sStarts resolvedFilePath resolvedBaseDir) then .error errOutsideBase
  else .ok resolvedFilePath

/-- The stage of `validateImagePath` after prefix stripping
(`security.ts` lines 86-100): drop leading slashes, reject an empty or
all-whitespace remainder, sanitize, re-run the traversal checks. -/
def afterStrip (cwd : List Str) (baseDir np1 : Str) : Except String Str :=
  let np2 := np1.dropWhile fun c => decide (c = '/')
  if np2 = [] || jsTrimBlank np2 then .error errEmptyPath
  else
    let sanitized := sanitizePath np2
    if sIncludes sanitized dotdot || sStarts sanitized ['/'] then .error errTraversal
    else boundaryCheck cwd baseDir sanitized

/-- `validateImagePath` from `src/server/utils/security.ts` (the prefix-stripping
variant, lines 61-116), with success as `Except.ok` of the resolved absolute
path and failure as `Except.error` of the error message. -/
def validateImagePathL (cwd : List Str) (relativePath baseDir : Str) : Except String Str :=
  if sIncludes relativePath dotdot || sStarts relativePath ['/'] then .error errTraversal
  else
    match stripBaseStep (mapSlash relativePath) (mapSlash baseDir) with
    | .error e => .error e
    | .ok np1 => afterStrip cwd baseDir np1

/-- String-level wrapper of `validateImagePathL`. -/
def validateImagePath (cwd : List String) (relativePath baseDir : String) :
    Except String String :=
  (validateImagePathL (cwd.map String.data) relativePath.data baseDir.data).map String.mk

/-- The raw input contains a `".."` path segment (with either separator style). -/
def hasDotDotSeg (p : String) : Prop :=
  dotdot ∈ splitSlash (mapSlash p.data)

instance (p : String) : Decidable (hasDotDotSeg p) :=
  inferInstanceAs (Decidable (dotdot ∈ splitSlash (mapSlash p.data)))

/-- The segments `path.resolve` keeps: nonempty and not `"."`. -/
def keepSeg (seg : Str) : Bool :=
  decide (seg ≠ [] ∧ seg ≠ ['.'])

/-- `child` lies strictly below `base` in the directory tree. -/
def descendantOf (child base : Str) : Prop :=
  ∃ r, r ≠ [] ∧ child = base ++ '/' :: r

/-- The base-directory arguments actually used by the callers (`"optimized"`,
`"originals"`): a nonempty, slash-free plain directory name. -/
def goodBaseDir (b : String) : Prop :=
  b.data ≠ [] ∧ '/' ∉ b.data ∧ b.data ≠ ['.'] ∧ b.data ≠ dotdot

instance (b : String) : Decidable (goodBaseDir b) :=
  inferInstanceAs (Decidable (_ ∧ _ ∧ _ ∧ _))

/-! ### Further Node `path` helpers used by `optimizer.ts` and `metadata.ts` -/

/-- Length of the longest common segment-list head. -/
def commonLen : List Str → List Str → Nat
  | a :: as, b :: bs => if a = b then commonLen as bs + 1 else 0
  | _, _ => 0

/-- Node `path.relative(f, t)` (POSIX): resolve both paths against the working
directory, drop the longest common leading segment run, then climb with `".."`
segments and descend into the remainder of the target. -/
def pathRelative (cwd : List Str) (f t : Str) : Str :=
  let fs := resolveSegs cwd f
  let ts := resolveSegs cwd t
  let k := commonLen fs ts
  joinSegs (List.replicate (fs.length - k) dotdot ++ ts.drop k)

/-- Node `path.basename(p)` for the slash-normalized, non-trailing-slash paths
the sources build: the last `splitSlash` segment. -/
def pathBasename (p : String) : String :=
  String.mk ((splitSlash p.data).getLastD [])

/-- Node `path.dirname(p)` for the paths the sources build: everything before
the last segment (`"."` when there is no slash, `"/"` for a root child). -/
def pathDirname (p : String) : String :=
  match (splitSlash p.data).dropLast with
  | [] => "."
  | [[]] => "/"
  | segs => String.mk (joinSegs segs)

/-! ### `src/optimizer.ts` -/

/-- The result record built by `generateFormat` (`optimizer.ts` lines 11-19 and
128-136). `savingsPercent` is a floating-point display value and is not
modelled; `savings` is the exact integer `originalSize - optimizedSize`. -/
structure OptimizationResult where
  name : String
  originalSize : Nat
  optimizedSize : Nat
  output : String
  originalPath : String
  savings : Int
deriving DecidableEq

/-- `outputPath = path.join(outputDir, baseName + "." + format)`
(`optimizer.ts` line 93). -/
def generateFormatOutputPath (outputDir baseName fmt : String) : String :=
  String.mk (joinRaw outputDir.data (baseName.data ++ '.' :: fmt.data))

/-- The canonical-path seed of the metadata record written by `generateFormat`
(`optimizer.ts` line 123):
`path.relative(outputDir, outputPath).replace(/\\/g, "/")`, where `outputDir`
is the argument `generateFormat` was called with. -/
def generateFormatRelPath (cwd : List String) (outputDir baseName fmt : String) : String :=
  String.mk (mapSlash (pathRelative (cwd.map String.data) outputDir.data
    (generateFormatOutputPath outputDir baseName fmt).data))

/-- The bookkeeping of `generateFormat` (`optimizer.ts` lines 112-136) once the
encode has produced a file of `optimizedSize` bytes; the sharp pipeline itself
is I/O and enters only through `optimizedSize`. -/
def generateFormatResult (outputDir baseName fmt originalPath : String)
    (originalSize optimizedSize : Nat) : OptimizationResult :=
  { name := String.mk (baseName.data ++ '.' :: fmt.data)
    originalSize := originalSize
    optimizedSize := optimizedSize
    output := generateFormatOutputPath outputDir baseName fmt
    originalPath := originalPath
    savings := (originalSize : Int) - (optimizedSize : Int) }

/-- The `relativePath` seeded for a derivative by `optimizeImage`:
`getDateFolder` builds `year/month/day` (`optimizer.ts` lines 24-30),
`optimizedDateDir = path.join(outputDir, dateFolder)` (line 46), and
`generateFormat` is invoked with `optimizedDateDir` as its `outputDir`
(lines 64-65, 74). -/
def optimizeImageSeededRelPath (cwd : List String)
    (outputDir year month day baseName fmt : String) : String :=
  let dateDir := String.mk (joinRaw outputDir.data
    (joinRaw (joinRaw year.data month.data) day.data))
  generateFormatRelPath cwd dateDir baseName fmt

/-- The `format` option of `optimizeImage` (`optimizer.ts` line 8). -/
inductive FormatOpt where
  | jpeg
  | webp
  | both
deriving DecidableEq

/-- `Promise.all` over two already-started promises: both computations run to
completion (their side effects on disk happen regardless), but the combined
promise rejects as soon as either rejects, discarding the sibling's value.
When both reject, JS settles with whichever rejected first in time; this
embedding deterministically reports the first argument's error. -/
def promiseAll2 {α : Type} (a b : Except String α) : Except String (α × α) :=
  match a, b with
  | .error e, _ => .error e
  | .ok _, .error e => .error e
  | .ok x, .ok y => .ok (x, y)

/-- The format dispatch of `optimizeImage` (`optimizer.ts` lines 61-79), with
the outcomes of the two `generateFormat` calls injected (they are I/O). -/
def optimizeImageResults (fmt : FormatOpt)
    (jpegRun webpRun : Except String OptimizationResult) :
    Except String (List OptimizationResult) :=
  match fmt with
  | .both =>
    match promiseAll2 jpegRun webpRun with
    | .ok (j, w) => .ok [j, w]
    | .error e => .error e
  | .jpeg => jpegRun.map fun r => [r]
  | .webp => webpRun.map fun r => [r]

/-- A concrete derivative result used as the sibling outcome in claim C7. -/
def sampleResult : OptimizationResult :=
  { name := "photo.webp"
    originalSize := 100
    optimizedSize := 40
    output := "optimized/2025/10/31/photo.webp"
    originalPath := "originals/2025/10/31/photo.jpg"
    savings := 60 }

/-! ### The `/optimize` route's per-file loop (`server.ts` lines 416-440) -/

/-- JS `r.output.replace(/\\/g, "/").replace(/^optimized\//, "")`
(`server.ts` line 426): drop one leading `"optimized/"` if present. -/
def stripOptimizedOnce (s : Str) : Str :=
  if sStarts s ("optimized/" : String).data then s.drop 10 else s

/-- `{...r, downloadUrl}` as pushed into `allResults` (`server.ts` lines 427-430). -/
structure UrlResult where
  base : OptimizationResult
  downloadUrl : String
deriving DecidableEq

def toUrlResult (r : OptimizationResult) : UrlResult :=
  { base := r
    downloadUrl :=
      String.mk (("/download/" : String).data ++ stripOptimizedOnce (mapSlash r.output.data)) }

/-- The error-isolating per-file loop of the `/optimize` route
(`server.ts` lines 418-440): each file's `optimizeImage` outcome is injected
through `opt`; successes are appended to `allResults`, failures are formatted
`"<name>: <message>"` and collected into `errors`. -/
def processFiles (opt : String → Except String (List OptimizationResult)) :
    List String → List UrlResult × List String
  | [] => ([], [])
  | name :: rest =>
    match opt name with
    | .ok results =>
      let (rs, es) := processFiles opt rest
      (results.map toUrlResult ++ rs, es)
    | .error e =>
      let (rs, es) := processFiles opt rest
      (rs, (name ++ ": " ++ e) :: es)

/-! ### `src/metadata.ts` -/

/-- What `parseExif` keeps of an EXIF buffer (`metadata.ts` lines 92-103). -/
structure ExifInfo where
  hasExif : Bool
  rawSize : Nat
deriving DecidableEq

/-- The `ImageMetadata` interface (`metadata.ts` lines 5-34); optional TS
fields become `Option`s, ISO timestamp strings stay strings. -/
structure ImageMetadata where
  filename : String
  path : String
  relativePath : String
  originalPath : String
  fileSize : Nat
  originalSize : Nat
  format : String
  width : Nat
  height : Nat
  title : Option String
  altText : Option String
  description : Option String
  caption : Option String
  keywords : Option (List String)
  exif : Option ExifInfo
  colorSpace : Option String
  hasAlpha : Option Bool
  createdAt : String
  updatedAt : String
deriving DecidableEq

/-- `Partial<ImageMetadata>`: `none` means the field is absent from the patch
object, `some v` that it is present with value `v` (a present-but-`undefined`
TS property is not distinguished). -/
structure MetadataPatch where
  filename : Option String := none
  path : Option String := none
  relativePath : Option String := none
  originalPath : Option String := none
  fileSize : Option Nat := none
  originalSize : Option Nat := none
  format : Option String := none
  width : Option Nat := none
  height : Option Nat := none
  title : Option String := none
  altText : Option String := none
  description : Option String := none
  caption : Option String := none
  keywords : Option (List String) := none
  exif : Option ExifInfo := none
  colorSpace : Option String := none
  hasAlpha : Option Bool := none
  createdAt : Option String := none
  updatedAt : Option String := none
deriving DecidableEq

def emptyPatch : MetadataPatch := {}

def titlePatch (x : String) : MetadataPatch := { title := some x }

/-- Overlay of a patch field onto an optional record field (object spread). -/
def overOpt {α : Type} (pv rv : Option α) : Option α :=
  match pv with
  | some v => some v
  | none => rv

/-- The JS object spread `{...r, ...p}` over the `ImageMetadata` fields. -/
def applyPatch (r : ImageMetadata) (p : MetadataPatch) : ImageMetadata :=
  { filename := p.filename.getD r.filename
    path := p.path.getD r.path
    relativePath := p.relativePath.getD r.relativePath
    originalPath := p.originalPath.getD r.originalPath
    fileSize := p.fileSize.getD r.fileSize
    originalSize := p.originalSize.getD r.originalSize
    format := p.format.getD r.format
    width := p.width.getD r.width
    height := p.height.getD r.height
    title := overOpt p.title r.title
    altText := overOpt p.altText r.altText
    description := overOpt p.description r.description
    caption := overOpt p.caption r.caption
    keywords := overOpt p.keywords r.keywords
    exif := overOpt p.exif r.exif
    colorSpace := overOpt p.colorSpace r.colorSpace
    hasAlpha := overOpt p.hasAlpha r.hasAlpha
    createdAt := p.createdAt.getD r.createdAt
    updatedAt := p.updatedAt.getD r.updatedAt }

/-- The RFC 4648 base64 alphabet. -/
def b64Alphabet : List Char :=
  ("ABCDEFGHIJKLMNOPQRSTUVWXYZabcdefghijklmnopqrstuvwxyz0123456789+/" : String).data

def b64Char (n : Nat) : Char :=
  b64Alphabet.getD n 'A'

/-- Base64 of a byte list, three bytes per four output characters with `'='`
padding (`Buffer.prototype.toString("base64")`). -/
def b64Chunks : List Nat → List Char
  | [] => []
  | [a] => [b64Char (a / 4), b64Char (a % 4 * 16), '=', '=']
  | [a, b] => [b64Char (a / 4), b64Char (a % 4 * 16 + b / 16), b64Char (b % 16 * 4), '=']
  | a :: b :: c :: rest =>
    b64Char (a / 4) :: b64Char (a % 4 * 16 + b / 16) :: b64Char (b % 16 * 4 + c / 64) ::
      b64Char (c % 64) :: b64Chunks rest

/-- `getMetadataPath` (`metadata.ts` lines 50-54):
`.metadata/<base64(imagePath) with [/+=] stripped>.json`. `Buffer.from` is
UTF-8; asset paths are ASCII, for which the bytes are the code points. -/
def getMetadataPath (imagePath : String) : String :=
  String.mk ((".metadata/" : String).data ++
    ((b64Chunks (imagePath.data.map Char.toNat)).filter fun c =>
      decide (c ≠ '/' ∧ c ≠ '+' ∧ c ≠ '=')) ++
    (".json" : String).data)

/-- The `.metadata` directory as a map from metadata file path to parsed
record (`fs` reads and writes of one JSON file per asset). -/
abbrev MetaStore := String → Option ImageMetadata

def fsWrite (st : MetaStore) (k : String) (v : ImageMetadata) : MetaStore :=
  fun q => if q = k then some v else st q

def fsUnlink (st : MetaStore) (k : String) : MetaStore :=
  fun q => if q = k then none else st q

/-- `loadMetadata` (`metadata.ts` lines 108-121): `null` when the metadata
file is absent; the `relativePath`/`originalPath` arguments are unused, as in
the source. A parse failure also yields `null`, but records written by this
module always parse. -/
def loadMetadata (st : MetaStore) (imagePath relativePath originalPath : String) :
    Option ImageMetadata :=
  st (getMetadataPath imagePath)

/-- The record synthesized by `saveMetadata` when no record exists
(`metadata.ts` lines 138-154): defaults spread with the technical attributes.
`extractImageMetadata` is I/O (sharp + fs.stat) and is injected as the
`technical` patch; its failure mode (only fresh timestamps) is one possible
value of that patch. -/
def synthRecord (imagePath relativePath originalPath : String)
    (technical : MetadataPatch) (now : String) : ImageMetadata :=
  applyPatch
    { filename := pathBasename imagePath
      path := imagePath
      relativePath := relativePath
      originalPath := originalPath
      fileSize := 0
      originalSize := 0
      format := "unknown"
      width := 0
      height := 0
      title := none
      altText := none
      description := none
      caption := none
      keywords := none
      exif := none
      colorSpace := none
      hasAlpha := none
      createdAt := now
      updatedAt := now }
    technical

/-- The merge step of `saveMetadata` (`metadata.ts` lines 156-164):
`{...existing, ...metadata, updatedAt: now, filename: metadata.filename ||
existing.filename, path: imagePath, relativePath}`. Note the `||`: a provided
but empty filename falls back to the existing one. -/
def mergeRecord (existing : ImageMetadata) (meta : MetadataPatch)
    (imagePath relativePath now : String) : ImageMetadata :=
  { applyPatch existing meta with
    updatedAt := now
    filename :=
      match meta.filename with
      | some f => if f = "" then existing.filename else f
      | none => existing.filename
    path := imagePath
    relativePath := relativePath }

/-- `saveMetadata` (`metadata.ts` lines 126-171): load-or-synthesize, merge,
persist, return the merged record; `now` is `new Date().toISOString()`. -/
def saveMetadata (st : MetaStore) (imagePath relativePath originalPath : String)
    (meta technical : MetadataPatch) (now : String) : ImageMetadata × MetaStore :=
  let existing :=
    match st (getMetadataPath imagePath) with
    | some m => m
    | none => synthRecord imagePath relativePath originalPath technical now
  let updated := mergeRecord existing meta imagePath relativePath now
  (updated, fsWrite st (getMetadataPath imagePath) updated)

/-- Derivative files on disk plus the `.metadata` directory. -/
structure FsState where
  files : List String
  meta : MetaStore

/-- `renameImage` (`metadata.ts` lines 203-232): refuse an existing target,
rename the file, then — only if a record exists at the old key — update its
filename/path/relativePath, write it under the new key and delete the old
key (in that order). -/
def renameImage (st : FsState) (oldPath newFilename relativePath : String) :
    Except String (String × FsState) :=
  let dir := pathDirname oldPath
  let newPath := String.mk (joinRaw dir.data newFilename.data)
  if newPath ∈ st.files then .error "File with that name already exists"
  else
    let filesAfter := newPath :: st.files.erase oldPath
    let oldKey := getMetadataPath oldPath
    match st.meta oldKey with
    | some m =>
      let updated := { m with
        filename := newFilename
        path := newPath
        relativePath :=
          String.mk (mapSlash (joinRaw (pathDirname relativePath).data newFilename.data)) }
      .ok (newPath, ⟨filesAfter, fsUnlink (fsWrite st.meta (getMetadataPath newPath) updated) oldKey⟩)
    | none => .ok (newPath, ⟨filesAfter, st.meta⟩)

/-- A concrete persisted record for the claim C5/C6 witnesses. -/
def sampleRecord : ImageMetadata :=
  { filename := "photo.webp"
    path := "optimized/2025/10/31/photo.webp"
    relativePath := "photo.webp"
    originalPath := "originals/2025/10/31/photo.jpg"
    fileSize := 40
    originalSize := 100
    format := "webp"
    width := 100
    height := 80
    title := none
    altText := none
    description := none
    caption := none
    keywords := none
    exif := none
    colorSpace := some "srgb"
    hasAlpha := some false
    createdAt := "2025-10-31T00:00:00.000Z"
    updatedAt := "2025-10-31T00:00:00.000Z" }

/-- A `.metadata` directory holding exactly `sampleRecord`. -/
def samplePhotoStore : MetaStore :=
  fun q => if q = getMetadataPath "optimized/2025/10/31/photo.webp" then some sampleRecord else none

/-- A filesystem holding exactly the sample derivative. -/
def sampleFs : FsState :=
  ⟨["optimized/2025/10/31/photo.webp"], samplePhotoStore⟩

/-! ### `src/server/utils/cache.ts` (`SimpleCache`) -/

/-- A cache entry (`cache.ts` lines 8-12); `timestamp` is `Date.now()` in ms. -/
structure CacheEntry (α : Type) where
  data : α
  timestamp : Nat
  ttl : Nat
deriving DecidableEq

/-- `SimpleCache` (`cache.ts` lines 17-74): the backing JS `Map` is a list of
key/entry pairs in insertion order (head = oldest). -/
structure SimpleCache (α : Type) where
  cache : List (String × CacheEntry α)
  maxSize : Nat
deriving DecidableEq

/-- `Map.get`. -/
def alookup {α : Type} (k : String) : List (String × α) → Option α
  | [] => none
  | (k', v) :: rest => if k' = k then some v else alookup k rest

/-- `Map.delete` (a JS `Map` holds each key at most once). -/
def aerase {α : Type} (k : String) : List (String × α) → List (String × α)
  | [] => []
  | (k', v) :: rest => if k' = k then rest else (k', v) :: aerase k rest

/-- `Map.set`: overwrite in place, keeping the original insertion position,
or append a new key at the end. -/
def aset {α : Type} (k : String) (v : α) : List (String × α) → List (String × α)
  | [] => [(k, v)]
  | (k', v') :: rest => if k' = k then (k, v) :: rest else (k', v') :: aset k v rest

/-- `SimpleCache.get` (`cache.ts` lines 25-40): miss on absence; lazy TTL
eviction when `now - timestamp > ttl`; otherwise promote to most recently
used (`Map.delete` then `Map.set` of the now-absent key appends at the end)
and return the value. `Date.now()` is injected as `now`. -/
def cacheGet {α : Type} (c : SimpleCache α) (key : String) (now : Nat) :
    Option α × SimpleCache α :=
  match alookup key c.cache with
  | none => (none, c)
  | some e =>
    if now - e.timestamp > e.ttl then
      (none, { c with cache := aerase key c.cache })
    else
      (some e.data, { c with cache := aerase key c.cache ++ [(key, e)] })

/-- The eviction step of `SimpleCache.set` (`cache.ts` lines 43-49): when at
capacity and the key is new, delete the first map key — but only when that key
is truthy (`if (firstKey)`), so an empty-string first key is skipped. -/
def evictForInsert {α : Type} (c : SimpleCache α) (key : String) :
    List (String × CacheEntry α) :=
  if c.cache.length ≥ c.maxSize ∧ (alookup key c.cache).isNone then
    match c.cache with
    | [] => c.cache
    | (k₀, _) :: rest => if k₀ = "" then c.cache else rest
  else c.cache

/-- `SimpleCache.set` (`cache.ts` lines 42-56): evict if needed, then `Map.set`
with the current timestamp. -/
def cacheSet {α : Type} (c : SimpleCache α) (key : String) (data : α) (ttl now : Nat) :
    SimpleCache α :=
  { c with cache := aset key ⟨data, now, ttl⟩ (evictForInsert c key) }

/-- `SimpleCache.delete` (`cache.ts` lines 58-60). -/
def cacheDelete {α : Type} (c : SimpleCache α) (key : String) : SimpleCache α :=
  { c with cache := aerase key c.cache }

/-- One public cache operation, with its `Date.now()` reading where relevant. -/
inductive CacheOp (α : Type) where
  | get (k : String) (now : Nat)
  | set (k : String) (v : α) (ttl now : Nat)
  | del (k : String)

def applyOp {α : Type} (c : SimpleCache α) : CacheOp α → SimpleCache α
  | .get k now => (cacheGet c k now).2
  | .set k v ttl now => cacheSet c k v ttl now
  | .del k => cacheDelete c k

def runOps {α : Type} (c : SimpleCache α) (ops : List (CacheOp α)) : SimpleCache α :=
  ops.foldl applyOp c

def emptyCache {α : Type} (m : Nat) : SimpleCache α :=
  ⟨[], m⟩

/-- An operation never inserts the empty string as a key. -/
def opKeyOk {α : Type} : CacheOp α → Bool
  | .set k _ _ _ => decide (k ≠ "")
  | _ => true

/-! ### Specification predicates used by the claim theorems -/

/-- The shallow-merge contract of `saveMetadata` against an existing record
`ex`: omitted patch fields keep their prior values; provided fields overwrite
— including empty strings and empty arrays — except `filename`, where a
provided empty string falls back to the prior value (`metadata.filename ||
existing.filename`); `updatedAt` is stamped and `path`/`relativePath` are
forced from the arguments. -/
def saveMergeSpec (ex : ImageMetadata) (meta : MetadataPatch) (p rp now : String)
    (r : ImageMetadata) : Prop :=
  (meta.title = none → r.title = ex.title) ∧
    (∀ v, meta.title = some v → r.title = some v) ∧
    (meta.altText = none → r.altText = ex.altText) ∧
    (∀ v, meta.altText = some v → r.altText = some v) ∧
    (meta.description = none → r.description = ex.description) ∧
    (∀ v, meta.description = some v → r.description = some v) ∧
    (meta.caption = none → r.caption = ex.caption) ∧
    (∀ v, meta.caption = some v → r.caption = some v) ∧
    (meta.keywords = none → r.keywords = ex.keywords) ∧
    (∀ v, meta.keywords = some v → r.keywords = some v) ∧
    (meta.exif = none → r.exif = ex.exif) ∧
    (∀ v, meta.exif = some v → r.exif = some v) ∧
    (meta.colorSpace = none → r.colorSpace = ex.colorSpace) ∧
    (∀ v, meta.colorSpace = some v → r.colorSpace = some v) ∧
    (meta.hasAlpha = none → r.hasAlpha = ex.hasAlpha) ∧
    (∀ v, meta.hasAlpha = some v → r.hasAlpha = some v) ∧
    (meta.format = none → r.format = ex.format) ∧
    (∀ v, meta.format = some v → r.format = v) ∧
    (meta.width = none → r.width = ex.width) ∧
    (∀ v, meta.width = some v → r.width = v) ∧
    (meta.height = none → r.height = ex.height) ∧
    (∀ v, meta.height = some v → r.height = v) ∧
    (meta.fileSize = none → r.fileSize = ex.fileSize) ∧
    (∀ v, meta.fileSize = some v → r.fileSize = v) ∧
    (meta.originalSize = none → r.originalSize = ex.originalSize) ∧
    (∀ v, meta.originalSize = some v → r.originalSize = v) ∧
    (meta.createdAt = none → r.createdAt = ex.createdAt) ∧
    (∀ v, meta.createdAt = some v → r.createdAt = v) ∧
    (meta.originalPath = none → r.originalPath = ex.originalPath) ∧
    (∀ v, meta.originalPath = some v → r.originalPath = v) ∧
    (meta.filename = none → r.filename = ex.filename) ∧
    (meta.filename = some "" → r.filename = ex.filename) ∧
    (∀ f, meta.filename = some f → f ≠ "" → r.filename = f) ∧
    r.updatedAt = now ∧
    r.path = p ∧
    r.relativePath = rp

/-- Calling `save(p, {title := x})` twice only advances `updatedAt` the
second time; every other field of the returned record is unchanged. -/
def saveTwiceSpec (st : MetaStore) (p rp op : String) (technical : MetadataPatch) : Prop :=
  ∀ (x n₁ n₂ : String),
    (saveMetadata (saveMetadata st p rp op (titlePatch x) technical n₁).2
        p rp op (titlePatch x) technical n₂).1 =
      { (saveMetadata st p rp op (titlePatch x) technical n₁).1 with updatedAt := n₂ }

/-- The relocation contract of `renameImage`: the rename succeeds and returns
the new path; if a record existed at the old key, it is gone from the old key
and sits at the new key with the new filename; if none existed, the metadata
store is untouched. (The trailing `loadMetadata` arguments are unused by the
source and passed as `""`.) -/
def relocateSpec (st : FsState) (oldPath newFilename relativePath : String) : Prop :=
  ∃ st' : FsState,
    renameImage st oldPath newFilename relativePath =
      .ok (String.mk (joinRaw (pathDirname oldPath).data newFilename.data), st') ∧
    (∀ m, st.meta (getMetadataPath oldPath) = some m →
      loadMetadata st'.meta oldPath "" "" = none ∧
      (loadMetadata st'.meta (String.mk (joinRaw (pathDirname oldPath).data newFilename.data))
          "" "").map ImageMetadata.filename = some newFilename) ∧
    (st.meta (getMetadataPath oldPath) = none → st'.meta = st.meta)

/-- The get/set contract of `SimpleCache`: an immediate `get` after `set`
returns the value; a `get` more than `ttl` after insertion misses and removes
the entry; a `get` on a present, unexpired entry returns its value and moves
it to the most-recently-used end. -/
def cacheTtlLruSpec {α : Type} (c : SimpleCache α) (k : String) (v : α)
    (ttl now now₂ : Nat) (e : CacheEntry α) : Prop :=
  ((cacheGet (cacheSet c k v ttl now) k now).1 = some v) ∧
    (now₂ - now > ttl →
      (cacheGet (cacheSet c k v ttl now) k now₂).1 = none ∧
        alookup k (cacheGet (cacheSet c k v ttl now) k now₂).2.cache = none) ∧
    (alookup k c.cache = some e → now - e.timestamp ≤ e.ttl →
      cacheGet c k now = (some e.data, { c with cache := aerase k c.cache ++ [(k, e)] }))

/-- Inserting a new key while exactly at capacity (with a truthy first key)
evicts the entry at the front of the recency order and appends the new one. -/
def evictsFrontSpec (α : Type) : Prop :=
  ∀ (c : SimpleCache α) (k : String) (v : α) (ttl now : Nat) (k₀ : String)
      (e₀ : CacheEntry α) (rest : List (String × CacheEntry α)),
    c.cache = (k₀, e₀) :: rest → c.cache.length = c.maxSize → k₀ ≠ "" →
    alookup k c.cache = none →
    (cacheSet c k v ttl now).cache = rest ++ [(k, ⟨v, now, ttl⟩)]

/-- The invariant maintained by the cache operations: fixed capacity, entry
count at or below it, and no empty-string key. -/
def cacheInv {α : Type} (m : Nat) (c : SimpleCache α) : Prop :=
  c.maxSize = m ∧ c.cache.length ≤ m ∧ ∀ kv ∈ c.cache, kv.1 ≠ ""

/-! ### Substring and segment lemmas -/

theorem sub_cons {seg l : Str} (c : Char) (h : seg <:+: l) : seg <:+: c :: l := by
  obtain ⟨u, v, huv⟩ := h
  exact ⟨c :: u, v, by simp only [List.cons_append, huv]⟩

theorem splitSlash_head (s : Str) : ∃ h t, splitSlash s = h :: t ∧ h <+: s := by
  induction s with
  | nil => exact ⟨[], [], rfl, List.nil_prefix⟩
  | cons c rest ih =>
    obtain ⟨h, t, he, hp⟩ := ih
    by_cases hc : c = '/'
    · subst hc
      exact ⟨[], splitSlash rest, by simp [splitSlash], List.nil_prefix⟩
    · refine ⟨c :: h, t, by simp [splitSlash, hc, he], ?_⟩
      obtain ⟨u, hu⟩ := hp
      exact ⟨u, by simp [hu]⟩

/-- Every element of `splitSlash s` occurs as a contiguous substring of `s`. -/
theorem mem_splitSlash_sub : ∀ (s seg : Str), seg ∈ splitSlash s → seg <:+: s := by
  intro s
  induction s with
  | nil =>
    intro seg hm
    simp [splitSlash] at hm
    exact ⟨[], [], by simp [hm]⟩
  | cons c rest ih =>
    intro seg hm
    by_cases hc : c = '/'
    · subst hc
      simp [splitSlash] at hm
      rcases hm with rfl | hm
      · exact ⟨[], '/' :: rest, rfl⟩
      · exact sub_cons _ (ih seg hm)
    · obtain ⟨h, t, he, hp⟩ := splitSlash_head rest
      simp [splitSlash, hc, he] at hm
      rcases hm with rfl | hm
      · obtain ⟨u, hu⟩ := hp
        exact ⟨[], u, by simp [hu]⟩
      · have hmem : seg ∈ splitSlash rest := by
          rw [he]; exact List.mem_cons_of_mem _ hm
        exact sub_cons _ (ih seg hmem)

/-- If `".."` occurs as a substring after backslash normalization, it already
occurred in the raw input (only `'.'` maps to `'.'` under `mapSlash`). -/
theorem dotdot_sub_mapSlash : ∀ (s : Str), dotdot <:+: mapSlash s → dotdot <:+: s := by
  intro s
  induction s with
  | nil =>
    intro h
    simp [mapSlash, dotdot] at h
  | cons c rest ih =>
    intro h
    obtain ⟨u, v, huv⟩ := h
    cases u with
    | nil =>
      simp only [List.nil_append, dotdot, List.cons_append, mapSlash, List.map_cons] at huv
      have hc : c = '.' := by
        by_cases hb : c = '\\'
        · simp [hb] at huv
        · simp [hb] at huv
          exact huv.1.symm
      have htail : '.' :: v = (mapSlash rest) := by
        have := congrArg List.tail huv
        simpa [mapSlash] using this
      cases rest with
      | nil => simp [mapSlash] at htail
      | cons d rest' =>
        have hd : d = '.' := by
          simp only [mapSlash, List.map_cons, List.cons.injEq] at htail
          by_cases hb : d = '\\'
          · simp [hb] at htail
          · simp [hb] at htail
            exact htail.1.symm
        exact ⟨[], rest', by simp [hc, hd, dotdot]⟩
    | cons x u' =>
      simp only [mapSlash, List.map_cons, List.cons_append, List.append_assoc,
        List.cons.injEq] at huv
      have : dotdot <:+: mapSlash rest := by
        exact ⟨u', v, by simpa [mapSlash, List.append_assoc] using huv.2⟩
      exact sub_cons _ (ih this)

/-- Claim C1: every input that contains a `".."` segment or begins with the
root separator `'/'` is rejected by `validateImagePath` with the
path-traversal error, for any working directory and any base directory —
the check runs on the raw input, before prefix stripping or sanitization
(`security.ts` lines 65-68). -/
theorem validateImagePath_rejects_traversal (cwd : List String) (p baseDir : String)
    (h : hasDotDotSeg p ∨ sStarts p.data ['/'] = true) :
    validateImagePath cwd p baseDir = .error errTraversal := by
  have hcond : (sIncludes p.data dotdot || sStarts p.data ['/']) = true := by
    rcases h with h | h
    · have h1 : dotdot <:+: mapSlash p.data := mem_splitSlash_sub _ _ h
      have h2 : dotdot <:+: p.data := dotdot_sub_mapSlash _ h1
      simp [sIncludes, h2]
    · simp [h]
  unfold validateImagePath validateImagePathL
  rw [if_pos hcond]
  rfl

theorem validateImagePath_rejects_traversal_witness :
    (hasDotDotSeg "2025/../../etc/passwd" ∨
        sStarts ("2025/../../etc/passwd" : String).data ['/'] = true) ∧
      validateImagePath ["srv"] "2025/../../etc/passwd" "optimized" = .error errTraversal :=
  ⟨Or.inl (by decide),
    validateImagePath_rejects_traversal ["srv"] "2025/../../etc/passwd" "optimized"
      (Or.inl (by decide))⟩

/-- Claim C3 (code-bug evidence): stripping the base-directory name with and
without a following separator. The input `"optimizedX/a.jpg"` has its
`"optimized"` prefix stripped even though no separator follows (the third
branch of `security.ts` lines 81-84), resolving to `<base>/X/a.jpg` instead of
treating the whole input as relative to the base directory; the two spellings
with and without the `"optimized/"` prefix do resolve to the same absolute
path. -/
theorem validateImagePath_strips_unseparated_base :
    validateImagePath ["srv"] "optimizedX/a.jpg" "optimized" = .ok "/srv/optimized/X/a.jpg" ∧
      validateImagePath ["srv"] "optimized/2025/10/31/a.jpg" "optimized" =
        validateImagePath ["srv"] "2025/10/31/a.jpg" "optimized" ∧
      validateImagePath ["srv"] "2025/10/31/a.jpg" "optimized" =
        .ok "/srv/optimized/2025/10/31/a.jpg" :=
  ⟨rfl, rfl, rfl⟩

/-! ### Resolution shape lemmas (for claim C2) -/

theorem splitSlash_no_slash (a : Str) (h : '/' ∉ a) : splitSlash a = [a] := by
  induction a with
  | nil => rfl
  | cons c a' ih =>
    have hc : c ≠ '/' := fun hc => h (hc ▸ List.mem_cons_self _ _)
    have h' : '/' ∉ a' := fun hm => h (List.mem_cons_of_mem _ hm)
    simp [splitSlash, hc, ih h']

theorem splitSlash_append (a b : Str) (h : '/' ∉ a) :
    splitSlash (a ++ '/' :: b) = a :: splitSlash b := by
  induction a with
  | nil => simp [splitSlash]
  | cons c a' ih =>
    have hc : c ≠ '/' := fun hc => h (hc ▸ List.mem_cons_self _ _)
    have h' : '/' ∉ a' := fun hm => h (List.mem_cons_of_mem _ hm)
    simp [splitSlash, hc, ih h']

theorem normStack_no_dotdot :
    ∀ (segs acc : List Str), dotdot ∉ segs →
      normStack acc segs = acc ++ segs.filter keepSeg := by
  intro segs
  induction segs with
  | nil =>
    intro acc _
    simp [normStack]
  | cons seg rest ih =>
    intro acc h
    have hs : seg ≠ dotdot := fun he => h (he ▸ List.mem_cons_self _ _)
    have h' : dotdot ∉ rest := fun hm => h (List.mem_cons_of_mem _ hm)
    by_cases h1 : seg = [] ∨ seg = ['.']
    · have hk : keepSeg seg = false := by
        simp only [keepSeg, decide_eq_false_iff_not]
        tauto
      simp only [normStack, if_pos h1, ih _ h', List.filter_cons, hk]
      simp
    · have hk : keepSeg seg = true := by
        simp only [keepSeg, decide_eq_true_eq]
        tauto
      simp only [normStack, if_neg h1, if_neg hs, ih _ h', List.filter_cons, hk]
      simp

theorem joinSegs_append :
    ∀ (xs ys : List Str), xs ≠ [] → ys ≠ [] →
      joinSegs (xs ++ ys) = joinSegs xs ++ '/' :: joinSegs ys := by
  intro xs
  induction xs with
  | nil => intro ys h; exact absurd rfl h
  | cons x xs' ih =>
    intro ys _ hy
    cases xs' with
    | nil =>
      cases ys with
      | nil => exact absurd rfl hy
      | cons y ys' => simp [joinSegs]
    | cons x2 xs'' =>
      calc joinSegs ((x :: x2 :: xs'') ++ ys)
          = x ++ '/' :: joinSegs ((x2 :: xs'') ++ ys) := by
            simp [joinSegs, List.cons_append]
        _ = x ++ '/' :: (joinSegs (x2 :: xs'') ++ '/' :: joinSegs ys) := by
            rw [ih ys (by simp) hy]
        _ = joinSegs (x :: x2 :: xs'') ++ '/' :: joinSegs ys := by
            simp [joinSegs]

theorem joinSegs_ne_nil (ys : List Str) (h : ys ≠ []) (hall : ∀ y ∈ ys, y ≠ []) :
    joinSegs ys ≠ [] := by
  cases ys with
  | nil => exact absurd rfl h
  | cons y ys' =>
    cases ys' with
    | nil => simpa [joinSegs] using hall y (by simp)
    | cons y2 t =>
      have hy : y ≠ [] := hall y (by simp)
      simp [joinSegs, hy]

theorem sStarts_slash_cons (c : Char) (t : Str) (h : c ≠ '/') :
    sStarts (c :: t) ['/'] = false := by
  simp only [sStarts, decide_eq_false_iff_not]
  intro hp
  obtain ⟨u, hu⟩ := hp
  simp at hu
  exact h hu.1.symm

theorem resolveAbs_plain_base (cwd : List Str) (b : Str) (hne : b ≠ [])
    (hs : '/' ∉ b) (hd1 : b ≠ ['.']) (hd2 : b ≠ dotdot) :
    resolveAbs cwd b = absOf (cwd ++ [b]) := by
  obtain ⟨c, t, rfl⟩ : ∃ c t, b = c :: t := by
    cases b with
    | nil => exact absurd rfl hne
    | cons c t => exact ⟨c, t, rfl⟩
  have hc : c ≠ '/' := fun hcc => hs (hcc ▸ List.mem_cons_self _ _)
  unfold resolveAbs resolveSegs
  rw [sStarts_slash_cons _ _ hc]
  simp only [Bool.false_eq_true, if_false]
  rw [splitSlash_no_slash _ hs]
  simp [normStack, hd1, hd2]

theorem resolveAbs_join_shape (cwd : List Str) (b s : Str) (hne : b ≠ [])
    (hs : '/' ∉ b) (hd1 : b ≠ ['.']) (hd2 : b ≠ dotdot)
    (hnodd : sIncludes s dotdot = false) :
    resolveAbs cwd (joinRaw b s) = absOf (cwd ++ [b]) ∨
      descendantOf (resolveAbs cwd (joinRaw b s)) (absOf (cwd ++ [b])) := by
  by_cases hsz : s = []
  · left
    subst hsz
    have hj : joinRaw b [] = b := by simp [joinRaw, hne]
    rw [hj]
    exact resolveAbs_plain_base cwd b hne hs hd1 hd2
  · have hj : joinRaw b s = b ++ '/' :: s := by simp [joinRaw, hne, hsz]
    rw [hj]
    obtain ⟨c, t, rfl⟩ : ∃ c t, b = c :: t := by
      cases b with
      | nil => exact absurd rfl hne
      | cons c t => exact ⟨c, t, rfl⟩
    have hc : c ≠ '/' := fun hcc => hs (hcc ▸ List.mem_cons_self _ _)
    have hdd : dotdot ∉ splitSlash s := by
      intro hm
      have hsub := mem_splitSlash_sub s dotdot hm
      simp [sIncludes, hsub] at hnodd
    unfold resolveAbs resolveSegs
    rw [show (c :: t) ++ '/' :: s = c :: (t ++ '/' :: s) from rfl]
    rw [sStarts_slash_cons _ _ hc]
    simp only [Bool.false_eq_true, if_false]
    rw [show c :: (t ++ '/' :: s) = (c :: t) ++ '/' :: s from rfl]
    rw [splitSlash_append _ _ hs]
    simp only [normStack, List.cons_ne_nil, hd1, hd2, false_or, or_false, if_neg, if_false]
    rw [normStack_no_dotdot _ _ hdd]
    by_cases hE : (splitSlash s).filter keepSeg = []
    · left
      simp [hE]
    · right
      refine ⟨joinSegs ((splitSlash s).filter keepSeg),
        joinSegs_ne_nil _ hE ?_, ?_⟩
      · intro y hy
        have hk := List.of_mem_filter hy
        simp only [keepSeg, decide_eq_true_eq] at hk
        exact hk.1
      · unfold absOf
        rw [joinSegs_append (cwd ++ [c :: t]) _ (by simp) hE]
        simp

theorem boundaryCheck_ok (cwd : List Str) (b s out : Str)
    (h : boundaryCheck cwd b s = .ok out) :
    out = resolveAbs cwd (joinRaw b s) := by
  simp only [boundaryCheck] at h
  split at h
  · simp at h
  · simp only [Except.ok.injEq] at h
    exact h.symm

theorem afterStrip_ok (cwd : List Str) (b np1 out : Str)
    (h : afterStrip cwd b np1 = .ok out) :
    ∃ s, sIncludes s dotdot = false ∧ out = resolveAbs cwd (joinRaw b s) := by
  simp only [afterStrip] at h
  split at h
  · simp at h
  · split at h
    · simp at h
    · rename_i hguard
      refine ⟨_, ?_, boundaryCheck_ok _ _ _ _ h⟩
      have hfalse : (sIncludes (sanitizePath (np1.dropWhile fun c => decide (c = '/'))) dotdot
          || sStarts (sanitizePath (np1.dropWhile fun c => decide (c = '/'))) ['/']) = false := by
        simpa using hguard
      exact (Bool.or_eq_false_iff.mp hfalse).1

theorem validateImagePathL_ok (cwd : List Str) (p b out : Str)
    (h : validateImagePathL cwd p b = .ok out) :
    ∃ s, sIncludes s dotdot = false ∧ out = resolveAbs cwd (joinRaw b s) := by
  simp only [validateImagePathL] at h
  split at h
  · simp at h
  · split at h
    · simp at h
    · exact afterStrip_ok _ _ _ _ h

/-- Claim C2 counterexample: the input `"."` is accepted by `validateImagePath`
and resolves to the base directory itself, which is not a (strict) descendant
of the base directory. -/
theorem validateImagePath_dot_not_descendant :
    validateImagePath ["srv"] "." "optimized" = .ok "/srv/optimized" ∧
      resolveAbs [("srv" : String).data] ("optimized" : String).data =
        ("/srv/optimized" : String).data ∧
      ¬ descendantOf ("/srv/optimized" : String).data ("/srv/optimized" : String).data := by
  refine ⟨rfl, rfl, ?_⟩
  rintro ⟨r, hr, he⟩
  have hlen := congrArg List.length he
  simp [List.length_append] at hlen

/-- Claim C2 (amended): whenever `validateImagePath` succeeds, the returned
path is absolute and is either the resolved base directory itself or a strict
descendant of it; inputs that normalize to nothing but `"."` segments (e.g.
`"."`) return the base directory exactly, while every canonical derivative
path returns a strict descendant. -/
theorem validateImagePath_ok_descendant_or_base (cwd : List String) (p baseDir out : String)
    (hb : goodBaseDir baseDir)
    (h : validateImagePath cwd p baseDir = .ok out) :
    (∃ t, out.data = '/' :: t) ∧
      (out.data = resolveAbs (cwd.map String.data) baseDir.data ∨
        descendantOf out.data (resolveAbs (cwd.map String.data) baseDir.data)) := by
  obtain ⟨hb1, hb2, hb3, hb4⟩ := hb
  have hL : validateImagePathL (cwd.map String.data) p.data baseDir.data = .ok out.data := by
    unfold validateImagePath at h
    cases hx : validateImagePathL (cwd.map String.data) p.data baseDir.data with
    | error e => rw [hx] at h; simp [Except.map] at h
    | ok l =>
      rw [hx] at h
      simp only [Except.map, Except.ok.injEq] at h
      rw [← h]
  obtain ⟨s, hs, hout⟩ := validateImagePathL_ok _ _ _ _ hL
  have hbase : resolveAbs (cwd.map String.data) baseDir.data =
      absOf (cwd.map String.data ++ [baseDir.data]) :=
    resolveAbs_plain_base _ _ hb1 hb2 hb3 hb4
  have hres := resolveAbs_join_shape (cwd.map String.data) baseDir.data s hb1 hb2 hb3 hb4 hs
  constructor
  · refine ⟨joinSegs (resolveSegs (cwd.map String.data) (joinRaw baseDir.data s)), ?_⟩
    rw [hout]
    rfl
  · rw [hout, hbase]
    exact hres

theorem validateImagePath_ok_descendant_or_base_witness :
    goodBaseDir "optimized" ∧
      ((∃ t, ("/srv/optimized/2025/10/31/a.jpg" : String).data = '/' :: t) ∧
        (("/srv/optimized/2025/10/31/a.jpg" : String).data =
            resolveAbs (["srv"].map String.data) ("optimized" : String).data ∨
          descendantOf ("/srv/optimized/2025/10/31/a.jpg" : String).data
            (resolveAbs (["srv"].map String.data) ("optimized" : String).data))) :=
  ⟨by decide,
    validateImagePath_ok_descendant_or_base ["srv"] "2025/10/31/a.jpg" "optimized"
      "/srv/optimized/2025/10/31/a.jpg" (by decide) rfl⟩

/-! ### Claims C4, C10, C7: optimizer bookkeeping and error isolation -/

/-- Claim C4 (code-bug evidence): the metadata record seeded at transcode time
carries `path.relative(optimizedDateDir, outputPath)` — the bare
`<basename>.<ext>` — instead of the date-bucketed canonical path
`YYYY/MM/DD/<basename>.<ext>` relative to the derivative root that the spec
and the optimizer's own comment (`optimizer.ts` lines 121-122: relative to
`"optimized"`) call for: `generateFormat` is passed the date directory, not
the root, as its `outputDir`. -/
theorem seededRelativePath_drops_date_bucket :
    optimizeImageSeededRelPath ["srv"] "optimized" "2025" "10" "31" "photo" "webp" =
        "photo.webp" ∧
      optimizeImageSeededRelPath ["srv"] "optimized" "2025" "10" "31" "photo" "webp" ≠
        "2025/10/31/photo.webp" :=
  ⟨rfl, by decide⟩

/-- Claim C10: `savings` is exactly `originalSize - optimizedSize` over the
integers (`optimizer.ts` line 116), negative when the derivative is larger,
and surfaced without clamping, as the concrete instance shows. -/
theorem savings_exact_and_unclamped :
    (∀ (outputDir baseName fmt originalPath : String) (originalSize optimizedSize : Nat),
      (generateFormatResult outputDir baseName fmt originalPath
          originalSize optimizedSize).savings =
        (originalSize : Int) - (optimizedSize : Int)) ∧
      (generateFormatResult "optimized/2025/10/31" "photo" "webp"
          "originals/2025/10/31/photo.jpg" 10 25).savings = -15 ∧
      (generateFormatResult "optimized/2025/10/31" "photo" "webp"
          "originals/2025/10/31/photo.jpg" 10 25).savings < 0 :=
  ⟨fun _ _ _ _ _ _ => rfl, by decide, by decide⟩

/-- Claim C7 counterexample: with format `both`, a jpeg-encode failure makes
the whole per-file `optimizeImage` call reject (`Promise.all`,
`optimizer.ts` lines 63-66), so the successfully encoded webp sibling is not
reported to the caller — nothing of that file is. -/
theorem optimizeBoth_failure_drops_sibling :
    optimizeImageResults .both (.error "jpeg encode failed") (.ok sampleResult) =
      .error "jpeg encode failed" :=
  rfl

/-- Claim C7 (amended): with format `both` both encodes are started together
and each runs to completion, but `Promise.all` rejects the per-file call if
either fails, reporting neither derivative for that file; across a multi-file
batch, per-file failures are collected as `"<name>: <message>"` strings and
reported alongside the other files' successes instead of aborting the batch
(`server.ts` lines 418-440). -/
theorem optimizeBoth_and_batch_reporting :
    (∀ (e : String) (w : Except String OptimizationResult),
      optimizeImageResults .both (.error e) w = .error e) ∧
      (∀ (j : OptimizationResult) (e : String),
        optimizeImageResults .both (.ok j) (.error e) = .error e) ∧
      (∀ (j w : OptimizationResult),
        optimizeImageResults .both (.ok j) (.ok w) = .ok [j, w]) ∧
      (∀ (opt : String → Except String (List OptimizationResult)) (files : List String),
        (processFiles opt files).1 =
          (files.map fun n =>
            match opt n with
            | .ok rs => rs.map toUrlResult
            | .error _ => []).flatten ∧
        (processFiles opt files).2 =
          files.filterMap fun n =>
            match opt n with
            | .ok _ => none
            | .error e => some (n ++ ": " ++ e)) := by
  refine ⟨fun e w => rfl, fun j e => rfl, fun j w => rfl, fun opt files => ?_⟩
  induction files with
  | nil => simp [processFiles]
  | cons n rest ih =>
    cases hx : opt n with
    | ok rs => simp [processFiles, hx, ih.1, ih.2]
    | error e => simp [processFiles, hx, ih.1, ih.2]

/-! ### Association-list lemmas for the `Map`-backed cache -/

theorem alookup_aset_self {α : Type} (k : String) (v : α) :
    ∀ l : List (String × α), alookup k (aset k v l) = some v := by
  intro l
  induction l with
  | nil => simp [aset, alookup]
  | cons kv rest ih =>
    obtain ⟨k', v'⟩ := kv
    by_cases hk : k' = k
    · simp [aset, alookup, hk]
    · simp [aset, alookup, hk, ih]

theorem aset_of_alookup_none {α : Type} (k : String) (v : α) :
    ∀ l : List (String × α), alookup k l = none → aset k v l = l ++ [(k, v)] := by
  intro l
  induction l with
  | nil => intro _; simp [aset]
  | cons kv rest ih =>
    obtain ⟨k', v'⟩ := kv
    intro h
    by_cases hk : k' = k
    · simp [alookup, hk] at h
    · simp only [alookup, if_neg hk] at h
      simp [aset, hk, ih h]

theorem length_aset_of_alookup_some {α : Type} (k : String) (v w : α) :
    ∀ l : List (String × α), alookup k l = some w →
      (aset k v l).length = l.length := by
  intro l
  induction l with
  | nil => intro h; simp [alookup] at h
  | cons kv rest ih =>
    obtain ⟨k', v'⟩ := kv
    intro h
    by_cases hk : k' = k
    · simp [aset, hk]
    · simp only [alookup, if_neg hk] at h
      simp [aset, hk, ih h]

theorem length_aerase_le {α : Type} (k : String) :
    ∀ l : List (String × α), (aerase k l).length ≤ l.length := by
  intro l
  induction l with
  | nil => simp [aerase]
  | cons kv rest ih =>
    obtain ⟨k', v'⟩ := kv
    by_cases hk : k' = k
    · simp [aerase, hk]
    · simp only [aerase, if_neg hk, List.length_cons]
      omega

theorem length_aerase_of_some {α : Type} (k : String) (w : α) :
    ∀ l : List (String × α), alookup k l = some w →
      (aerase k l).length + 1 = l.length := by
  intro l
  induction l with
  | nil => intro h; simp [alookup] at h
  | cons kv rest ih =>
    obtain ⟨k', v'⟩ := kv
    intro h
    by_cases hk : k' = k
    · simp [aerase, hk]
    · simp only [alookup, if_neg hk] at h
      simp only [aerase, if_neg hk, List.length_cons]
      have hih := ih h
      omega

theorem mem_aerase_sub {α : Type} (k : String) :
    ∀ (l : List (String × α)) (x : String × α), x ∈ aerase k l → x ∈ l := by
  intro l
  induction l with
  | nil => intro x hx; simp [aerase] at hx
  | cons kv rest ih =>
    obtain ⟨k', v'⟩ := kv
    intro x hx
    by_cases hk : k' = k
    · simp only [aerase, if_pos hk] at hx
      exact List.mem_cons_of_mem _ hx
    · simp only [aerase, if_neg hk, List.mem_cons] at hx
      rcases hx with rfl | hx
      · exact List.mem_cons_self _ _
      · exact List.mem_cons_of_mem _ (ih x hx)

theorem mem_aset_sub {α : Type} (k : String) (v : α) :
    ∀ (l : List (String × α)) (x : String × α), x ∈ aset k v l → x ∈ l ∨ x = (k, v) := by
  intro l
  induction l with
  | nil => intro x hx; simp [aset] at hx; exact Or.inr hx
  | cons kv rest ih =>
    obtain ⟨k', v'⟩ := kv
    intro x hx
    by_cases hk : k' = k
    · simp only [aset, if_pos hk, List.mem_cons] at hx
      rcases hx with rfl | hx
      · exact Or.inr rfl
      · exact Or.inl (List.mem_cons_of_mem _ hx)
    · simp only [aset, if_neg hk, List.mem_cons] at hx
      rcases hx with rfl | hx
      · exact Or.inl (List.mem_cons_self _ _)
      · rcases ih x hx with hx | hx
        · exact Or.inl (List.mem_cons_of_mem _ hx)
        · exact Or.inr hx

theorem mem_of_alookup_some {α : Type} (k : String) (v : α) :
    ∀ l : List (String × α), alookup k l = some v → (k, v) ∈ l := by
  intro l
  induction l with
  | nil => intro h; simp [alookup] at h
  | cons kv rest ih =>
    obtain ⟨k', v'⟩ := kv
    intro h
    by_cases hk : k' = k
    · simp only [alookup, if_pos hk, Option.some.injEq] at h
      subst hk
      subst h
      exact List.mem_cons_self _ _
    · simp only [alookup, if_neg hk] at h
      exact List.mem_cons_of_mem _ (ih h)

theorem alookup_none_of_keys {α : Type} (k : String) :
    ∀ l : List (String × α), k ∉ l.map Prod.fst → alookup k l = none := by
  intro l
  induction l with
  | nil => intro _; rfl
  | cons kv rest ih =>
    obtain ⟨k', v'⟩ := kv
    intro h
    simp only [List.map_cons, List.mem_cons] at h
    push_neg at h
    have h2 : ¬ k' = k := fun he => h.1 he.symm
    simp only [alookup, if_neg h2]
    exact ih h.2

theorem mem_keys_aset {α : Type} (k : String) (v : α) :
    ∀ (l : List (String × α)) (x : String),
      x ∈ (aset k v l).map Prod.fst → x ∈ l.map Prod.fst ∨ x = k := by
  intro l
  induction l with
  | nil => intro x hx; simp [aset] at hx; exact Or.inr hx
  | cons kv rest ih =>
    obtain ⟨k', v'⟩ := kv
    intro x hx
    by_cases hk : k' = k
    · simp only [aset, if_pos hk, List.map_cons, List.mem_cons] at hx
      rcases hx with rfl | hx
      · exact Or.inr rfl
      · simp [hx]
    · simp only [aset, if_neg hk, List.map_cons, List.mem_cons] at hx
      rcases hx with rfl | hx
      · simp
      · rcases ih x hx with hx | hx
        · simp [hx]
        · exact Or.inr hx

theorem keys_aset_nodup {α : Type} (k : String) (v : α) :
    ∀ l : List (String × α), (l.map Prod.fst).Nodup →
      ((aset k v l).map Prod.fst).Nodup := by
  intro l
  induction l with
  | nil => intro _; simp [aset]
  | cons kv rest ih =>
    obtain ⟨k', v'⟩ := kv
    intro hnd
    simp only [List.map_cons, List.nodup_cons] at hnd
    by_cases hk : k' = k
    · simp only [aset, if_pos hk, List.map_cons, List.nodup_cons]
      rw [← hk]
      exact hnd
    · simp only [aset, if_neg hk, List.map_cons, List.nodup_cons]
      refine ⟨fun hmem => ?_, ih hnd.2⟩
      rcases mem_keys_aset k v rest k' hmem with hx | hx
      · exact hnd.1 hx
      · exact hk hx

theorem alookup_aerase_self {α : Type} (k : String) :
    ∀ l : List (String × α), (l.map Prod.fst).Nodup →
      alookup k (aerase k l) = none := by
  intro l
  induction l with
  | nil => intro _; rfl
  | cons kv rest ih =>
    obtain ⟨k', v'⟩ := kv
    intro hnd
    simp only [List.map_cons, List.nodup_cons] at hnd
    by_cases hk : k' = k
    · subst hk
      simp only [aerase, if_pos rfl]
      exact alookup_none_of_keys _ _ hnd.1
    · simp only [aerase, if_neg hk, alookup, if_neg hk]
      exact ih hnd.2

theorem alookup_aerase_ne {α : Type} (k q : String) (hne : q ≠ k) :
    ∀ l : List (String × α), alookup q (aerase k l) = alookup q l := by
  intro l
  induction l with
  | nil => rfl
  | cons kv rest ih =>
    obtain ⟨k', v'⟩ := kv
    by_cases hk : k' = k
    · have h1 : aerase k ((k', v') :: rest) = rest := by simp [aerase, hk]
      have h2 : ¬ k' = q := fun he => hne (he ▸ hk)
      simp only [h1, alookup, if_neg h2]
    · have h1 : aerase k ((k', v') :: rest) = (k', v') :: aerase k rest := by
        simp [aerase, hk]
      simp only [h1, alookup]
      by_cases hq : k' = q
      · simp only [if_pos hq]
      · simp only [if_neg hq]
        exact ih

/-! ### Cache invariant lemmas and claims C8, C9 -/

theorem evictForInsert_sub {α : Type} (c : SimpleCache α) (key : String) :
    (evictForInsert c key).length ≤ c.cache.length ∧
      ∀ x ∈ evictForInsert c key, x ∈ c.cache := by
  unfold evictForInsert
  split
  · split
    · exact ⟨le_refl _, fun x hx => hx⟩
    · rename_i k₀ e₀ rest heq
      split
      · exact ⟨le_refl _, fun x hx => hx⟩
      · constructor
        · rw [heq]
          simp
        · intro x hx
          rw [heq]
          exact List.mem_cons_of_mem _ hx
  · exact ⟨le_refl _, fun x hx => hx⟩

theorem evictForInsert_keys_nodup {α : Type} (c : SimpleCache α) (key : String)
    (hnd : (c.cache.map Prod.fst).Nodup) :
    ((evictForInsert c key).map Prod.fst).Nodup := by
  unfold evictForInsert
  split
  · split
    · exact hnd
    · rename_i k₀ e₀ rest heq
      split
      · exact hnd
      · rw [heq] at hnd
        simp only [List.map_cons, List.nodup_cons] at hnd
        exact hnd.2
  · exact hnd

theorem evictForInsert_at_capacity {α : Type} (c : SimpleCache α) (key k₀ : String)
    (e₀ : CacheEntry α) (rest : List (String × CacheEntry α))
    (hc : c.cache = (k₀, e₀) :: rest) (hge : c.cache.length ≥ c.maxSize) (hk₀ : k₀ ≠ "")
    (hnone : alookup key c.cache = none) :
    evictForInsert c key = rest := by
  unfold evictForInsert
  rw [if_pos ⟨hge, by simp [hnone]⟩]
  rw [hc]
  simp only [if_neg hk₀]

theorem alookup_none_tail {α : Type} (key k₀ : String) (e₀ : α) (rest : List (String × α))
    (hnone : alookup key ((k₀, e₀) :: rest) = none) :
    k₀ ≠ key ∧ alookup key rest = none := by
  by_cases h0 : k₀ = key
  · simp [alookup, h0] at hnone
  · simp only [alookup, if_neg h0] at hnone
    exact ⟨h0, hnone⟩

theorem cacheInv_get {α : Type} (m : Nat) (c : SimpleCache α) (k : String) (now : Nat)
    (h : cacheInv m c) : cacheInv m (cacheGet c k now).2 := by
  obtain ⟨hms, hlen, hmem⟩ := h
  cases he : alookup k c.cache with
  | none =>
    have hq : (cacheGet c k now).2 = c := by simp [cacheGet, he]
    rw [hq]
    exact ⟨hms, hlen, hmem⟩
  | some e =>
    by_cases hexp : now - e.timestamp > e.ttl
    · have hq : (cacheGet c k now).2 = { c with cache := aerase k c.cache } := by
        simp [cacheGet, he, hexp]
      rw [hq]
      exact ⟨hms, le_trans (length_aerase_le _ _) hlen,
        fun kv hkv => hmem _ (mem_aerase_sub _ _ _ hkv)⟩
    · have hq : (cacheGet c k now).2 = { c with cache := aerase k c.cache ++ [(k, e)] } := by
        simp [cacheGet, he, hexp]
      rw [hq]
      refine ⟨hms, ?_, ?_⟩
      · have hl := length_aerase_of_some k e c.cache he
        simp only [List.length_append, List.length_cons, List.length_nil]
        omega
      · intro kv hkv
        rcases List.mem_append.mp hkv with hkv | hkv
        · exact hmem _ (mem_aerase_sub _ _ _ hkv)
        · have hkv' : kv = (k, e) := by simpa using hkv
          rw [hkv']
          exact hmem _ (mem_of_alookup_some _ _ _ he)

theorem cacheInv_del {α : Type} (m : Nat) (c : SimpleCache α) (k : String)
    (h : cacheInv m c) : cacheInv m (cacheDelete c k) := by
  obtain ⟨hms, hlen, hmem⟩ := h
  exact ⟨hms, le_trans (length_aerase_le _ _) hlen,
    fun kv hkv => hmem _ (mem_aerase_sub _ _ _ hkv)⟩

theorem cacheInv_set {α : Type} (m : Nat) (hm : 1 ≤ m) (c : SimpleCache α)
    (k : String) (v : α) (ttl now : Nat) (hk : k ≠ "") (h : cacheInv m c) :
    cacheInv m (cacheSet c k v ttl now) := by
  obtain ⟨hms, hlen, hmem⟩ := h
  refine ⟨hms, ?_, ?_⟩
  · show (aset k ⟨v, now, ttl⟩ (evictForInsert c k)).length ≤ m
    cases hlk : alookup k (evictForInsert c k) with
    | some w =>
      rw [length_aset_of_alookup_some _ _ _ _ hlk]
      exact le_trans (evictForInsert_sub c k).1 hlen
    | none =>
      rw [aset_of_alookup_none _ _ _ hlk]
      simp only [List.length_append, List.length_cons, List.length_nil]
      by_cases hcond : c.cache.length ≥ c.maxSize ∧ (alookup k c.cache).isNone = true
      · obtain ⟨hge, hbn⟩ := hcond
        have hnone' : alookup k c.cache = none := by simpa using hbn
        have hlen_eq : c.cache.length = m := le_antisymm hlen (hms ▸ hge)
        cases hcc : c.cache with
        | nil =>
          rw [hcc] at hlen_eq
          simp at hlen_eq
          omega
        | cons kv rest =>
          obtain ⟨k₀, e₀⟩ := kv
          have hk₀ : k₀ ≠ "" := hmem _ (hcc ▸ List.mem_cons_self _ _)
          have hev : evictForInsert c k = rest :=
            evictForInsert_at_capacity c k k₀ e₀ rest hcc hge hk₀ hnone'
          rw [hev]
          rw [hcc] at hlen_eq
          simp only [List.length_cons] at hlen_eq
          omega
      · have hev : evictForInsert c k = c.cache := by
          unfold evictForInsert
          rw [if_neg hcond]
        rw [hev]
        have hnone' : alookup k c.cache = none := by rw [hev] at hlk; exact hlk
        have hlt : ¬ c.cache.length ≥ c.maxSize := fun hge => hcond ⟨hge, by simp [hnone']⟩
        omega
  · intro kv hkv
    rcases mem_aset_sub _ _ _ _ hkv with hx | hx
    · exact hmem _ ((evictForInsert_sub c k).2 _ hx)
    · rw [hx]
      exact hk

theorem runOps_cacheInv {α : Type} (m : Nat) (hm : 1 ≤ m) :
    ∀ (ops : List (CacheOp α)) (c : SimpleCache α),
      cacheInv m c → ops.all opKeyOk = true → cacheInv m (runOps c ops) := by
  intro ops
  induction ops with
  | nil => intro c h _; exact h
  | cons op rest ih =>
    intro c h hall
    simp only [List.all_cons, Bool.and_eq_true] at hall
    have h1 : cacheInv m (applyOp c op) := by
      cases op with
      | get k now => exact cacheInv_get m c k now h
      | set k v ttl now =>
        have hk : k ≠ "" := by simpa [opKeyOk] using hall.1
        exact cacheInv_set m hm c k v ttl now hk h
      | del k => exact cacheInv_del m c k h
    exact ih (applyOp c op) h1 hall.2

/-- Claim C8: `set(k, v, ttl)` then an immediate `get(k)` returns `v`; a `get`
more than `ttl` after insertion misses and deletes the entry (lazy expiry on
access, `cache.ts` lines 29-33); a `get` on a present, unexpired entry returns
its value and promotes it to the most-recently-used end (lines 35-39). -/
theorem cache_get_set_ttl_lru {α : Type} (c : SimpleCache α) (k : String) (v : α)
    (ttl now now₂ : Nat) (e : CacheEntry α)
    (hnd : (c.cache.map Prod.fst).Nodup) :
    cacheTtlLruSpec c k v ttl now now₂ e := by
  have hl : alookup k (cacheSet c k v ttl now).cache = some ⟨v, now, ttl⟩ := by
    show alookup k (aset k ⟨v, now, ttl⟩ (evictForInsert c k)) = _
    exact alookup_aset_self _ _ _
  refine ⟨?_, ?_, ?_⟩
  · simp [cacheGet, hl, Nat.sub_self, Nat.not_lt_zero]
  · intro hexp
    have hnd' : ((cacheSet c k v ttl now).cache.map Prod.fst).Nodup := by
      show ((aset k ⟨v, now, ttl⟩ (evictForInsert c k)).map Prod.fst).Nodup
      exact keys_aset_nodup _ _ _ (evictForInsert_keys_nodup c k hnd)
    constructor
    · simp [cacheGet, hl, hexp]
    · have hq : (cacheGet (cacheSet c k v ttl now) k now₂).2 =
          { cacheSet c k v ttl now with cache := aerase k (cacheSet c k v ttl now).cache } := by
        simp [cacheGet, hl, hexp]
      rw [hq]
      exact alookup_aerase_self _ _ hnd'
  · intro he hfresh
    simp only [cacheGet, he]
    rw [if_neg (by omega : ¬ (now - e.timestamp > e.ttl))]

theorem cache_get_set_ttl_lru_witness :
    cacheTtlLruSpec ({ cache := [("k", ⟨5, 0, 1000⟩)], maxSize := 10 } : SimpleCache Nat)
      "k" 7 50 100 200 ⟨5, 0, 1000⟩ :=
  cache_get_set_ttl_lru _ "k" 7 50 100 200 _ (by decide)

/-- Claim C9 counterexample: (1) with `maxSize = 1`, a `set` under the empty
string key followed by a `set` of a fresh key leaves two entries — the guard
`if (firstKey)` treats the empty-string first key as falsy and skips eviction,
so the configured bound is exceeded; (2) at capacity, overwriting `"a"` (the
most recent access) and then inserting the fresh key `"c"` evicts `"a"`, not
the least-recently-accessed `"b"` — an overwriting `set` keeps the entry at
its old position. -/
theorem cache_empty_key_breaks_bound :
    (runOps (emptyCache (α := Nat) 1)
        [CacheOp.set "" 0 1000 0, CacheOp.set "x" 0 1000 0]).cache.length = 2 ∧
      ¬ ((runOps (emptyCache (α := Nat) 1)
          [CacheOp.set "" 0 1000 0, CacheOp.set "x" 0 1000 0]).cache.length ≤ 1) ∧
      (cacheSet
          (cacheSet
            ({ cache := [("a", ⟨0, 0, 1000⟩), ("b", ⟨1, 1, 1000⟩)], maxSize := 2 } :
              SimpleCache Nat)
            "a" 5 1000 2)
          "c" 7 1000 3).cache.map Prod.fst = ["b", "c"] :=
  ⟨by decide, by decide, by decide⟩

/-- Claim C9 (amended): starting from an empty cache with `maxSize ≥ 1`, any
sequence of get/set/delete operations whose inserted keys are never the empty
string keeps the entry count at or below `maxSize`; and a `set` of a new key
at exact capacity (with a truthy first key) evicts precisely the entry at the
front of the recency order — least recently inserted-or-promoted: a `get`
promotes, an overwriting `set` does not. -/
theorem cache_bounded_and_evicts_lru {α : Type} (m : Nat) (hm : 1 ≤ m)
    (ops : List (CacheOp α)) (hops : ops.all opKeyOk = true) :
    (runOps (emptyCache m) ops).cache.length ≤ m ∧ evictsFrontSpec α := by
  constructor
  · exact (runOps_cacheInv m hm ops (emptyCache m)
      ⟨rfl, by simp [emptyCache], by simp [emptyCache]⟩ hops).2.1
  · intro c k v ttl now k₀ e₀ rest hc hfull hk₀ hnone
    have hge : c.cache.length ≥ c.maxSize := hfull.ge
    have hev : evictForInsert c k = rest :=
      evictForInsert_at_capacity c k k₀ e₀ rest hc hge hk₀ hnone
    have hrest : alookup k rest = none := by
      rw [hc] at hnone
      exact (alookup_none_tail _ _ _ _ hnone).2
    show aset k ⟨v, now, ttl⟩ (evictForInsert c k) = rest ++ [(k, ⟨v, now, ttl⟩)]
    rw [hev]
    exact aset_of_alookup_none _ _ _ hrest

theorem cache_bounded_and_evicts_lru_witness :
    (runOps (emptyCache 2)
        [CacheOp.set "a" (1 : Nat) 50 0, CacheOp.get "a" 10, CacheOp.set "b" 2 50 20,
          CacheOp.set "c" 3 50 30]).cache.length ≤ 2 ∧
      evictsFrontSpec Nat :=
  cache_bounded_and_evicts_lru 2 (by decide)
    [CacheOp.set "a" (1 : Nat) 50 0, CacheOp.get "a" 10, CacheOp.set "b" 2 50 20,
      CacheOp.set "c" 3 50 30] (by decide)

/-! ### Claims C5, C6: metadata merge and relocation -/

/-- Claim C5 counterexample: a `save` whose patch explicitly provides the
empty string as `filename` does not overwrite the prior filename — the merge
uses `metadata.filename || existing.filename` (`metadata.ts` line 161), and
`""` is falsy. -/
theorem saveMetadata_empty_filename_not_overwritten :
    (saveMetadata samplePhotoStore "optimized/2025/10/31/photo.webp" "photo.webp"
        "originals/2025/10/31/photo.jpg" { filename := some "" } emptyPatch
        "2025-11-01T00:00:00.000Z").1.filename = "photo.webp" ∧
      ("photo.webp" : String) ≠ "" :=
  ⟨by decide, by decide⟩

/-- Claim C5 (amended): against an existing record, `save` merges shallowly —
omitted fields keep their prior values and provided fields overwrite,
including empty strings and empty arrays, except `filename`, where a provided
empty string falls back to the prior value; `updatedAt` is stamped,
`path`/`relativePath` are forced from the arguments, the merged record is
persisted and returned, and saving `{title := x}` twice only advances
`updatedAt` the second time. -/
theorem saveMetadata_merge_semantics (st : MetaStore) (p rp op now : String)
    (meta technical : MetadataPatch) (ex : ImageMetadata)
    (hex : st (getMetadataPath p) = some ex) :
    saveMergeSpec ex meta p rp now (saveMetadata st p rp op meta technical now).1 ∧
      (saveMetadata st p rp op meta technical now).2 (getMetadataPath p) =
        some (saveMetadata st p rp op meta technical now).1 ∧
      saveTwiceSpec st p rp op technical := by
  have hfst : (saveMetadata st p rp op meta technical now).1 =
      mergeRecord ex meta p rp now := by
    simp [saveMetadata, hex]
  refine ⟨?_, ?_, ?_⟩
  · rw [hfst]
    unfold saveMergeSpec
    exact ⟨fun h => by simp [mergeRecord, applyPatch, overOpt, h],
      fun v h => by simp [mergeRecord, applyPatch, overOpt, h],
      fun h => by simp [mergeRecord, applyPatch, overOpt, h],
      fun v h => by simp [mergeRecord, applyPatch, overOpt, h],
      fun h => by simp [mergeRecord, applyPatch, overOpt, h],
      fun v h => by simp [mergeRecord, applyPatch, overOpt, h],
      fun h => by simp [mergeRecord, applyPatch, overOpt, h],
      fun v h => by simp [mergeRecord, applyPatch, overOpt, h],
      fun h => by simp [mergeRecord, applyPatch, overOpt, h],
      fun v h => by simp [mergeRecord, applyPatch, overOpt, h],
      fun h => by simp [mergeRecord, applyPatch, overOpt, h],
      fun v h => by simp [mergeRecord, applyPatch, overOpt, h],
      fun h => by simp [mergeRecord, applyPatch, overOpt, h],
      fun v h => by simp [mergeRecord, applyPatch, overOpt, h],
      fun h => by simp [mergeRecord, applyPatch, overOpt, h],
      fun v h => by simp [mergeRecord, applyPatch, overOpt, h],
      fun h => by simp [mergeRecord, applyPatch, overOpt, h],
      fun v h => by simp [mergeRecord, applyPatch, overOpt, h],
      fun h => by simp [mergeRecord, applyPatch, overOpt, h],
      fun v h => by simp [mergeRecord, applyPatch, overOpt, h],
      fun h => by simp [mergeRecord, applyPatch, overOpt, h],
      fun v h => by simp [mergeRecord, applyPatch, overOpt, h],
      fun h => by simp [mergeRecord, applyPatch, overOpt, h],
      fun v h => by simp [mergeRecord, applyPatch, overOpt, h],
      fun h => by simp [mergeRecord, applyPatch, overOpt, h],
      fun v h => by simp [mergeRecord, applyPatch, overOpt, h],
      fun h => by simp [mergeRecord, applyPatch, overOpt, h],
      fun v h => by simp [mergeRecord, applyPatch, overOpt, h],
      fun h => by simp [mergeRecord, applyPatch, overOpt, h],
      fun v h => by simp [mergeRecord, applyPatch, overOpt, h],
      fun h => by simp [mergeRecord, h],
      fun h => by simp [mergeRecord, h],
      fun f h hf => by simp [mergeRecord, h, hf],
      by simp [mergeRecord],
      by simp [mergeRecord],
      by simp [mergeRecord]⟩
  · simp [saveMetadata, fsWrite]
  · intro x n₁ n₂
    have hstore : (saveMetadata st p rp op (titlePatch x) technical n₁).2 =
        fsWrite st (getMetadataPath p) (mergeRecord ex (titlePatch x) p rp n₁) := by
      simp [saveMetadata, hex]
    have hfst₁ : (saveMetadata st p rp op (titlePatch x) technical n₁).1 =
        mergeRecord ex (titlePatch x) p rp n₁ := by
      simp [saveMetadata, hex]
    rw [hstore, hfst₁]
    have h2 : (fsWrite st (getMetadataPath p) (mergeRecord ex (titlePatch x) p rp n₁))
        (getMetadataPath p) = some (mergeRecord ex (titlePatch x) p rp n₁) := by
      simp [fsWrite]
    simp only [saveMetadata, h2]
    simp [mergeRecord, applyPatch, overOpt, titlePatch]

theorem saveMetadata_merge_semantics_witness :
    saveMergeSpec sampleRecord (titlePatch "X") "optimized/2025/10/31/photo.webp"
        "photo.webp" "2025-11-01T00:00:00.000Z"
        (saveMetadata samplePhotoStore "optimized/2025/10/31/photo.webp" "photo.webp"
          "originals/2025/10/31/photo.jpg" (titlePatch "X") emptyPatch
          "2025-11-01T00:00:00.000Z").1 ∧
      (saveMetadata samplePhotoStore "optimized/2025/10/31/photo.webp" "photo.webp"
          "originals/2025/10/31/photo.jpg" (titlePatch "X") emptyPatch
          "2025-11-01T00:00:00.000Z").2
          (getMetadataPath "optimized/2025/10/31/photo.webp") =
        some (saveMetadata samplePhotoStore "optimized/2025/10/31/photo.webp" "photo.webp"
          "originals/2025/10/31/photo.jpg" (titlePatch "X") emptyPatch
          "2025-11-01T00:00:00.000Z").1 ∧
      saveTwiceSpec samplePhotoStore "optimized/2025/10/31/photo.webp" "photo.webp"
        "originals/2025/10/31/photo.jpg" emptyPatch :=
  saveMetadata_merge_semantics samplePhotoStore "optimized/2025/10/31/photo.webp"
    "photo.webp" "originals/2025/10/31/photo.jpg" "2025-11-01T00:00:00.000Z"
    (titlePatch "X") emptyPatch sampleRecord (by decide)

/-- Claim C6: after a successful `renameImage` whose old and new paths hash to
distinct metadata keys, the record is gone from the old key and sits at the
new key with the new filename (`metadata.ts` lines 219-229: write new key,
then unlink old); when no record existed at the old key, the metadata store
is untouched. -/
theorem renameImage_relocates_record (st : FsState) (oldPath newFilename relativePath : String)
    (hfree : String.mk (joinRaw (pathDirname oldPath).data newFilename.data) ∉ st.files)
    (hkey : getMetadataPath oldPath ≠
      getMetadataPath (String.mk (joinRaw (pathDirname oldPath).data newFilename.data))) :
    relocateSpec st oldPath newFilename relativePath := by
  unfold relocateSpec
  cases hm : st.meta (getMetadataPath oldPath) with
  | some m =>
    have hres : renameImage st oldPath newFilename relativePath =
        .ok (String.mk (joinRaw (pathDirname oldPath).data newFilename.data),
          ⟨String.mk (joinRaw (pathDirname oldPath).data newFilename.data) ::
              st.files.erase oldPath,
            fsUnlink
              (fsWrite st.meta
                (getMetadataPath
                  (String.mk (joinRaw (pathDirname oldPath).data newFilename.data)))
                { m with
                  filename := newFilename
                  path := String.mk (joinRaw (pathDirname oldPath).data newFilename.data)
                  relativePath :=
                    String.mk (mapSlash
                      (joinRaw (pathDirname relativePath).data newFilename.data)) })
              (getMetadataPath oldPath)⟩) := by
      simp [renameImage, hfree, hm]
    refine ⟨_, hres, ?_, ?_⟩
    · intro m' hm'
      have hkey' : getMetadataPath
          (String.mk (joinRaw (pathDirname oldPath).data newFilename.data)) ≠
          getMetadataPath oldPath := fun he => hkey he.symm
      constructor
      · simp [loadMetadata, fsUnlink]
      · simp [loadMetadata, fsUnlink, fsWrite, hkey']
    · intro hnone
      exact absurd hnone (by simp)
  | none =>
    have hres : renameImage st oldPath newFilename relativePath =
        .ok (String.mk (joinRaw (pathDirname oldPath).data newFilename.data),
          ⟨String.mk (joinRaw (pathDirname oldPath).data newFilename.data) ::
              st.files.erase oldPath, st.meta⟩) := by
      simp [renameImage, hfree, hm]
    refine ⟨_, hres, ?_, fun _ => rfl⟩
    intro m' hm'
    exact absurd hm' (by simp)

theorem renameImage_relocates_record_witness :
    relocateSpec sampleFs "optimized/2025/10/31/photo.webp" "sunset.webp"
      "2025/10/31/photo.webp" :=
  renameImage_relocates_record sampleFs "optimized/2025/10/31/photo.webp" "sunset.webp"
    "2025/10/31/photo.webp" (by decide) (by decide)

end Crunch
